import Mathlib

/-!
Verification of the aoc2024 repository (src/day1.rs, src/day2.rs, src/parse.rs).

The day-2 checker `report_safety` is embedded as the NFA-style frontier
search of the source: states are `Start`, `Pos (index, sign, skipped)` and
`End`; the frontier loop is modelled with an explicit fuel argument
(`runSearch`), and we prove that fuel `report.length + 2` always suffices.
Machine arithmetic: the source casts `u32` values to `i32` and subtracts,
so deltas are taken modulo 2^32 and interpreted as signed values in
[-2^31, 2^31); `wrap32` models exactly that (release semantics of wrapping
arithmetic).

The day-1 and day-2 input parsers (winnow combinators `dec_uint`, `space1`,
`newline`, `separated(1..)`, plus `aoc_parse` which runs the parser in
complete mode, requiring the whole input to be consumed) are embedded as
functions `List Char → Option (α × List Char)` returning the parsed value
and the unconsumed rest of the input.
-/

namespace Aoc2024

/-! ## Day 2: data model, from src/day2.rs -/

inductive Safety : Type
  | Safe : Safety
  | Unsafe : Safety
deriving DecidableEq, Repr

inductive State : Type
  | Start : State
  | Pos : Nat → Int → Bool → State
  | End : State
deriving DecidableEq, Repr

/-- The `u32 as i32` cast followed by wrapping `i32` arithmetic: reduce
modulo 2^32 into the signed interval [-2^31, 2^31). -/
def wrap32 (z : Int) : Int := (z + 2 ^ 31) % 2 ^ 32 - 2 ^ 31

/-- Cast `x as i32` of a `u32` value `x` (levels are non-negative). -/
def toI32 (x : Nat) : Int := wrap32 x

/-- Wrapping `i32` subtraction (release-profile semantics). -/
def i32sub (a b : Int) : Int := wrap32 (a - b)

/-- Model of the `assess_move` closure of `report_safety`: the delta
`report[to] as i32 - report[i] as i32`, its validity test
`(delta_sign + sign) != 0 && (1..=3).contains(&delta.abs())` and the new
sign `delta.signum()`, from the `assess_move` closure of `report_safety`.
Out-of-range indices read the default 0 (the invariant theorem shows all
indices used on reachable states are in bounds). -/
def assess_move (l : List Nat) (i : Nat) (sign : Int) (tgt : Nat) : Bool × Int :=
  let delta : Int := i32sub (toI32 (l.getD tgt 0)) (toI32 (l.getD i 0))
  (decide (delta.sign + sign ≠ 0) && (decide (1 ≤ delta.natAbs) && decide (delta.natAbs ≤ 3)),
    delta.sign)

/-- Successor states of one state, from the body of the `while` loop of
`report_safety`: the `Start` arm, the `Pos(i, sign, skipped)` arm with its
normal move, skip move and the two transitions to `End`; `End` itself has
no successors (the loop returns `Safe` when it drains an `End`). -/
def succs (l : List Nat) (skip_enabled : Bool) : State → List State
  | State.Start =>
      (if l.length ≠ 0 then [State.Pos 0 0 false] else []) ++
        (if 1 < l.length ∧ skip_enabled = true then [State.Pos 1 0 true] else [])
  | State.Pos i sign skipped =>
      if i = l.length - 1 then [State.End]
      else
        (if (assess_move l i sign (i + 1)).1 then
          [State.Pos (i + 1) (assess_move l i sign (i + 1)).2 skipped]
        else []) ++
          (if skipped = false ∧ skip_enabled = true then
            if i = l.length - 2 then [State.End]
            else if (assess_move l i sign (i + 2)).1 then
              [State.Pos (i + 2) (assess_move l i sign (i + 2)).2 true]
            else []
          else [])
  | State.End => []

/-- The frontier loop of `report_safety` with explicit fuel: return `Safe`
when an `End` state is drained, `Unsafe` when the frontier empties, and
`none` if the fuel runs out first (the termination theorem shows fuel
`l.length + 2` always suffices).  The `HashSet` of the source only
deduplicates the frontier, which `List.dedup` models. -/
def runSearch (l : List Nat) (skip_enabled : Bool) : Nat → List State → Option Safety
  | 0, _ => none
  | fuel + 1, states =>
      if states.isEmpty then some Safety.Unsafe
      else if State.End ∈ states then some Safety.Safe
      else runSearch l skip_enabled fuel ((states.flatMap (succs l skip_enabled)).dedup)

/-- Function `report_safety` from src/day2.rs: run the frontier search from
`[Start]`.  Fuel `l.length + 2` is enough (proved below); the `getD`
default is never used. -/
def report_safety (l : List Nat) (skip_enabled : Bool) : Safety :=
  (runSearch l skip_enabled (l.length + 2) [State.Start]).getD Safety.Unsafe

/-- Function `part1` from src/day2.rs: count reports that are safe with skipping
disabled. -/
def part1 (reports : List (List Nat)) : Nat :=
  ((reports.map (fun r => report_safety r false)).filter
    (fun s => s = Safety.Safe)).length

/-- Function `part2` from src/day2.rs: count reports that are safe with skipping
enabled. -/
def part2 (reports : List (List Nat)) : Nat :=
  ((reports.map (fun r => report_safety r true)).filter
    (fun s => s = Safety.Safe)).length

/-- The six example reports of the tests in src/day2.rs. -/
def example_reports : List (List Nat) :=
  [[7, 6, 4, 2, 1], [1, 2, 7, 8, 9], [9, 7, 6, 2, 1],
   [1, 3, 2, 4, 5], [8, 6, 4, 4, 1], [1, 3, 6, 7, 9]]

/-! ## Reachability of search states

`StepsTo` is the reflexive-transitive closure of the successor relation;
`Reach` says a state is explored (up to frontier deduplication) by the
search on `l`.  `iterate` is the deduplicated frontier after `k` rounds. -/

inductive StepsTo (l : List Nat) (skip_enabled : Bool) : State → State → Prop
  | refl (s : State) : StepsTo l skip_enabled s s
  | tail {s t u : State} : StepsTo l skip_enabled s t → u ∈ succs l skip_enabled t →
      StepsTo l skip_enabled s u

/-- A search state is reachable from `Start`. -/
def Reach (l : List Nat) (skip_enabled : Bool) (s : State) : Prop :=
  StepsTo l skip_enabled State.Start s

theorem stepsTo_trans {l : List Nat} {skip_enabled : Bool} {s t u : State}
    (h1 : StepsTo l skip_enabled s t) (h2 : StepsTo l skip_enabled t u) :
    StepsTo l skip_enabled s u := by
  induction h2 with
  | refl => exact h1
  | tail _ hmem ih => exact StepsTo.tail ih hmem

/-- The deduplicated frontier after `k` rounds, starting from frontier `F`. -/
def iterate (l : List Nat) (skip_enabled : Bool) : Nat → List State → List State
  | 0, F => F
  | k + 1, F => ((iterate l skip_enabled k F).flatMap (succs l skip_enabled)).dedup

theorem iterate_nil (l : List Nat) (skip_enabled : Bool) :
    ∀ k, iterate l skip_enabled k [] = [] := by
  intro k
  induction k with
  | zero => rfl
  | succ k ih => simp [iterate, ih]

theorem iterate_succ_inner (l : List Nat) (skip_enabled : Bool) :
    ∀ k F, iterate l skip_enabled (k + 1) F =
      iterate l skip_enabled k ((F.flatMap (succs l skip_enabled)).dedup) := by
  intro k
  induction k with
  | zero => intro F; rfl
  | succ k ih =>
      intro F
      show ((iterate l skip_enabled (k + 1) F).flatMap (succs l skip_enabled)).dedup = _
      rw [ih F]
      rfl

theorem reach_of_mem_iterate {l : List Nat} {skip_enabled : Bool} :
    ∀ k F s, (∀ t ∈ F, Reach l skip_enabled t) → s ∈ iterate l skip_enabled k F →
      Reach l skip_enabled s := by
  intro k
  induction k with
  | zero => intro F s hF hs; exact hF s hs
  | succ k ih =>
      intro F s hF hs
      simp only [iterate, List.mem_dedup, List.mem_flatMap] at hs
      obtain ⟨t, ht, hst⟩ := hs
      exact StepsTo.tail (ih F t hF ht) hst

theorem mem_iterate_succ_of_succs {l : List Nat} {skip_enabled : Bool} {k : Nat}
    {F : List State} {t u : State} (ht : t ∈ iterate l skip_enabled k F)
    (hu : u ∈ succs l skip_enabled t) : u ∈ iterate l skip_enabled (k + 1) F := by
  simp only [iterate, List.mem_dedup, List.mem_flatMap]
  exact ⟨t, ht, hu⟩

theorem exists_of_mem_iterate_succ {l : List Nat} {skip_enabled : Bool} {k : Nat}
    {F : List State} {s : State} (h : s ∈ iterate l skip_enabled (k + 1) F) :
    ∃ t ∈ iterate l skip_enabled k F, s ∈ succs l skip_enabled t := by
  simpa only [iterate, List.mem_dedup, List.mem_flatMap] using h

theorem reach_iff_mem_iterate {l : List Nat} {skip_enabled : Bool} {s : State} :
    Reach l skip_enabled s ↔ ∃ k, s ∈ iterate l skip_enabled k [State.Start] := by
  constructor
  · intro h
    induction h with
    | refl => exact ⟨0, by simp [iterate]⟩
    | tail _ hmem ih =>
        obtain ⟨k, hk⟩ := ih
        exact ⟨k + 1, mem_iterate_succ_of_succs hk hmem⟩
  · rintro ⟨k, hk⟩
    refine reach_of_mem_iterate k [State.Start] s ?_ hk
    intro t ht
    simp at ht
    rw [ht]
    exact StepsTo.refl _

/-! ## The frontier loop: soundness, completeness, termination -/

theorem runSearch_safe_sound {l : List Nat} {skip_enabled : Bool} :
    ∀ fuel F, (∀ t ∈ F, Reach l skip_enabled t) →
      runSearch l skip_enabled fuel F = some Safety.Safe → Reach l skip_enabled State.End := by
  intro fuel
  induction fuel with
  | zero => intro F _ h; simp [runSearch] at h
  | succ fuel ih =>
      intro F hF h
      rw [runSearch] at h
      by_cases he : F.isEmpty
      · rw [if_pos he] at h
        simp at h
      · rw [if_neg he] at h
        by_cases hend : State.End ∈ F
        · exact hF _ hend
        · rw [if_neg hend] at h
          refine ih _ ?_ h
          intro t ht
          simp only [List.mem_dedup, List.mem_flatMap] at ht
          obtain ⟨u, hu, htu⟩ := ht
          exact StepsTo.tail (hF u hu) htu

theorem runSearch_safe_complete {l : List Nat} {skip_enabled : Bool} :
    ∀ k fuel F, k < fuel → State.End ∈ iterate l skip_enabled k F →
      runSearch l skip_enabled fuel F = some Safety.Safe := by
  intro k
  induction k with
  | zero =>
      intro fuel F hk hmem
      obtain ⟨fuel, rfl⟩ : ∃ f, fuel = f + 1 := ⟨fuel - 1, by omega⟩
      have hne : ¬ F.isEmpty := by
        simp only [iterate] at hmem
        simp [List.isEmpty_iff, List.ne_nil_of_mem hmem]
      rw [runSearch, if_neg hne, if_pos (by simpa [iterate] using hmem)]
  | succ k ih =>
      intro fuel F hk hmem
      obtain ⟨fuel, rfl⟩ : ∃ f, fuel = f + 1 := ⟨fuel - 1, by omega⟩
      rw [runSearch]
      by_cases he : F.isEmpty
      · exfalso
        rw [List.isEmpty_iff] at he
        rw [he, iterate_nil] at hmem
        simp at hmem
      · rw [if_neg he]
        by_cases hend : State.End ∈ F
        · rw [if_pos hend]
        · rw [if_neg hend]
          rw [iterate_succ_inner] at hmem
          exact ih fuel _ (by omega) hmem

theorem runSearch_resolves {l : List Nat} {skip_enabled : Bool} :
    ∀ k fuel F, k < fuel →
      (State.End ∈ iterate l skip_enabled k F ∨ iterate l skip_enabled k F = []) →
      runSearch l skip_enabled fuel F ≠ none := by
  intro k
  induction k with
  | zero =>
      intro fuel F hk hres
      obtain ⟨fuel, rfl⟩ : ∃ f, fuel = f + 1 := ⟨fuel - 1, by omega⟩
      rw [runSearch]
      by_cases he : F.isEmpty
      · rw [if_pos he]; simp
      · rw [if_neg he]
        have hend : State.End ∈ F := by
          rcases hres with h | h
          · simpa [iterate] using h
          · exact absurd (by simp only [List.isEmpty_iff]; exact h : F.isEmpty = true) he
        rw [if_pos hend]
        simp
  | succ k ih =>
      intro fuel F hk hres
      obtain ⟨fuel, rfl⟩ : ∃ f, fuel = f + 1 := ⟨fuel - 1, by omega⟩
      rw [runSearch]
      by_cases he : F.isEmpty
      · rw [if_pos he]; simp
      · rw [if_neg he]
        by_cases hend : State.End ∈ F
        · rw [if_pos hend]; simp
        · rw [if_neg hend]
          rw [iterate_succ_inner] at hres
          exact ih fuel _ (by omega) hres

/-! ## Shape of successors and the layer bound -/

theorem mem_succs_start {l : List Nat} {skip_enabled : Bool} {s : State}
    (h : s ∈ succs l skip_enabled State.Start) :
    ∃ i g b, s = State.Pos i g b ∧ i < l.length := by
  simp only [succs, List.mem_append] at h
  rcases h with h | h
  · by_cases hn : l.length ≠ 0
    · rw [if_pos hn] at h
      simp at h
      exact ⟨0, 0, false, h, by omega⟩
    · rw [if_neg hn] at h
      simp at h
  · by_cases hc : 1 < l.length ∧ skip_enabled = true
    · rw [if_pos hc] at h
      simp at h
      exact ⟨1, 0, true, h, by omega⟩
    · rw [if_neg hc] at h
      simp at h

theorem mem_succs_pos {l : List Nat} {skip_enabled : Bool} {i : Nat} {g : Int} {b : Bool}
    {s : State} (hi : i < l.length) (h : s ∈ succs l skip_enabled (State.Pos i g b)) :
    s = State.End ∨
      (∃ d, s = State.Pos (i + 1) d b ∧ i + 1 < l.length) ∨
      (∃ d, s = State.Pos (i + 2) d true ∧ i + 2 < l.length ∧ b = false) := by
  simp only [succs] at h
  by_cases hlast : i = l.length - 1
  · rw [if_pos hlast] at h
    simp at h
    exact Or.inl h
  · rw [if_neg hlast] at h
    simp only [List.mem_append] at h
    rcases h with h | h
    · by_cases hv : (assess_move l i g (i + 1)).1
      · rw [if_pos hv] at h
        simp at h
        exact Or.inr (Or.inl ⟨_, h, by omega⟩)
      · rw [if_neg hv] at h
        simp at h
    · by_cases hsk : b = false ∧ skip_enabled = true
      · rw [if_pos hsk] at h
        by_cases h2 : i = l.length - 2
        · rw [if_pos h2] at h
          simp at h
          exact Or.inl h
        · rw [if_neg h2] at h
          by_cases hv : (assess_move l i g (i + 2)).1
          · rw [if_pos hv] at h
            simp at h
            exact Or.inr (Or.inr ⟨_, h, by omega, hsk.1⟩)
          · rw [if_neg hv] at h
            simp at h
      · rw [if_neg hsk] at h
        simp at h

theorem end_not_mem_succs_start {l : List Nat} {skip_enabled : Bool} :
    State.End ∉ succs l skip_enabled State.Start := by
  intro h
  obtain ⟨i, g, b, heq, -⟩ := mem_succs_start h
  exact State.noConfusion heq

/-- Layer bound: after `k + 1` rounds every frontier state is `End` or a
position `Pos i` with `k ≤ i < l.length`. -/
theorem mem_iterate_bound {l : List Nat} {skip_enabled : Bool} :
    ∀ k s, s ∈ iterate l skip_enabled (k + 1) [State.Start] →
      s = State.End ∨ ∃ i g b, s = State.Pos i g b ∧ k ≤ i ∧ i < l.length := by
  intro k
  induction k with
  | zero =>
      intro s hs
      simp only [iterate, List.mem_dedup, List.mem_flatMap] at hs
      obtain ⟨t, ht, hst⟩ := hs
      simp only [List.mem_singleton] at ht
      subst ht
      obtain ⟨i, g, b, heq, hlt⟩ := mem_succs_start hst
      exact Or.inr ⟨i, g, b, heq, Nat.zero_le i, hlt⟩
  | succ k ih =>
      intro s hs
      obtain ⟨t, ht, hst⟩ := exists_of_mem_iterate_succ hs
      rcases ih t ht with hEnd | ⟨i, g, b, heq, hki, hilt⟩
      · subst hEnd
        simp [succs] at hst
      · subst heq
        rcases mem_succs_pos hilt hst with h | ⟨d, h, hb⟩ | ⟨d, h, hb, -⟩
        · exact Or.inl h
        · exact Or.inr ⟨i + 1, d, b, h, by omega, hb⟩
        · exact Or.inr ⟨i + 2, d, true, h, by omega, hb⟩

/-- If `End` ever appears in a frontier it appears by round
`l.length + 1`. -/
theorem end_layer_bound {l : List Nat} {skip_enabled : Bool} :
    ∀ k, State.End ∈ iterate l skip_enabled k [State.Start] → k ≤ l.length + 1 := by
  intro k hk
  match k with
  | 0 => simp [iterate] at hk
  | 1 => omega
  | k + 2 =>
      obtain ⟨t, ht, hst⟩ := exists_of_mem_iterate_succ hk
      rcases mem_iterate_bound k t ht with hEnd | ⟨i, g, b, heq, hki, hilt⟩
      · subst hEnd
        simp [succs] at hst
      · omega

/-! ## `report_safety` computes reachability of `End` -/

theorem runSearch_total (l : List Nat) (skip_enabled : Bool) :
    ∃ v, runSearch l skip_enabled (l.length + 2) [State.Start] = some v := by
  have hres : State.End ∈ iterate l skip_enabled (l.length + 1) [State.Start] ∨
      iterate l skip_enabled (l.length + 1) [State.Start] = [] := by
    by_cases hF : iterate l skip_enabled (l.length + 1) [State.Start] = []
    · exact Or.inr hF
    · obtain ⟨s, hs⟩ := List.exists_mem_of_ne_nil _ hF
      rcases mem_iterate_bound l.length s hs with hEnd | ⟨i, g, b, heq, hki, hilt⟩
      · exact Or.inl (hEnd ▸ hs)
      · omega
  have := runSearch_resolves (l.length + 1) (l.length + 2) [State.Start] (by omega) hres
  match h : runSearch l skip_enabled (l.length + 2) [State.Start] with
  | some v => exact ⟨v, rfl⟩
  | none => exact absurd h this

theorem report_safety_safe_iff_reach {l : List Nat} {skip_enabled : Bool} :
    report_safety l skip_enabled = Safety.Safe ↔ Reach l skip_enabled State.End := by
  constructor
  · intro h
    rw [report_safety] at h
    match hr : runSearch l skip_enabled (l.length + 2) [State.Start] with
    | none => rw [hr] at h; simp at h
    | some Safety.Unsafe => rw [hr] at h; simp at h
    | some Safety.Safe =>
        refine runSearch_safe_sound (l.length + 2) [State.Start] ?_ hr
        intro t ht
        simp at ht
        rw [ht]
        exact StepsTo.refl _
  · intro h
    obtain ⟨k, hk⟩ := reach_iff_mem_iterate.mp h
    have hkb : k ≤ l.length + 1 := end_layer_bound k hk
    have := runSearch_safe_complete k (l.length + 2) [State.Start] (by omega) hk
    rw [report_safety, this]
    rfl

theorem report_safety_eq_safe_or_unsafe (l : List Nat) (skip_enabled : Bool) :
    report_safety l skip_enabled = Safety.Safe ∨ report_safety l skip_enabled = Safety.Unsafe := by
  match h : report_safety l skip_enabled with
  | Safety.Safe => exact Or.inl rfl
  | Safety.Unsafe => exact Or.inr rfl

theorem report_safety_unsafe_iff_not_reach {l : List Nat} {skip_enabled : Bool} :
    report_safety l skip_enabled = Safety.Unsafe ↔ ¬ Reach l skip_enabled State.End := by
  constructor
  · intro h hr
    rw [← report_safety_safe_iff_reach] at hr
    rw [h] at hr
    exact Safety.noConfusion hr
  · intro h
    rcases report_safety_eq_safe_or_unsafe l skip_enabled with hs | hu
    · exact absurd (report_safety_safe_iff_reach.mp hs) h
    · exact hu

/-! ## Spec-side predicates

These follow the words of the specification ("strictly monotonic, one
direction for the whole sequence, with every adjacent gap magnitude in
[1,3]"; "there exists a choice of at most k indices to delete"), to be
compared with the search of the source. -/

/-- One strictly increasing step with gap in [1,3]. -/
def upStep (a b : Nat) : Prop := a < b ∧ b ≤ a + 3

/-- One strictly decreasing step with gap in [1,3]. -/
def downStep (a b : Nat) : Prop := b < a ∧ a ≤ b + 3

instance instDecUpStep (a b : Nat) : Decidable (upStep a b) :=
  inferInstanceAs (Decidable (a < b ∧ b ≤ a + 3))

instance instDecDownStep (a b : Nat) : Decidable (downStep a b) :=
  inferInstanceAs (Decidable (b < a ∧ a ≤ b + 3))

/-- The whole sequence is strictly monotonic in one direction with every
adjacent gap magnitude in [1,3] (vacuously true for length ≤ 1). -/
def goodSeq (l : List Nat) : Prop := l.Chain' upStep ∨ l.Chain' downStep

instance instDecGoodSeq (l : List Nat) : Decidable (goodSeq l) :=
  inferInstanceAs (Decidable (l.Chain' upStep ∨ l.Chain' downStep))

/-- Safe with tolerance `k` (for `k` ∈ {0,1}): some set of at most `k`
indices can be deleted so that the remaining sequence is good — the empty
set, or a singleton `{j}` with `j` a valid index. -/
def safeSpec (l : List Nat) (k : Nat) : Prop :=
  goodSeq l ∨ (1 ≤ k ∧ ∃ j < l.length, goodSeq (l.eraseIdx j))

instance instDecSafeSpec (l : List Nat) (k : Nat) : Decidable (safeSpec l k) :=
  inferInstanceAs
    (Decidable (goodSeq l ∨ (1 ≤ k ∧ ∃ j < l.length, goodSeq (l.eraseIdx j))))

/-- A step in direction `d` (`1` = increasing, `-1` = decreasing). -/
def relD (d : Int) (a b : Nat) : Prop := (d = 1 ∧ upStep a b) ∨ (d = -1 ∧ downStep a b)

/-! ## Arithmetic bridge: the i32 delta on in-range values -/

theorem wrap32_eq_self {z : Int} (h1 : -(2 ^ 31) ≤ z) (h2 : z < 2 ^ 31) :
    wrap32 z = z := by
  unfold wrap32
  rw [Int.emod_eq_of_lt (by omega) (by omega)]
  omega

theorem getD_lt {l : List Nat} {c : Nat} (hlt : ∀ x ∈ l, x < c) {i : Nat}
    (hi : i < l.length) : l.getD i 0 < c := by
  rw [List.getD_eq_getElem l 0 hi]
  exact hlt _ (l.getElem_mem hi)

theorem delta_eq {a b : Nat} (ha : a < 2 ^ 31) (hb : b < 2 ^ 31) :
    i32sub (toI32 b) (toI32 a) = (b : Int) - a := by
  unfold toI32 i32sub
  rw [wrap32_eq_self (z := (a : Int)) (by omega) (by omega),
    wrap32_eq_self (z := (b : Int)) (by omega) (by omega),
    wrap32_eq_self (by omega) (by omega)]

theorem assess_move_eq {l : List Nat} (hlt : ∀ x ∈ l, x < 2 ^ 31) {i tgt : Nat}
    (hi : i < l.length) (ht : tgt < l.length) (s : Int) :
    assess_move l i s tgt =
      (decide (((l.getD tgt 0 : Int) - (l.getD i 0 : Int)).sign + s ≠ 0) &&
        (decide (1 ≤ ((l.getD tgt 0 : Int) - (l.getD i 0 : Int)).natAbs) &&
          decide (((l.getD tgt 0 : Int) - (l.getD i 0 : Int)).natAbs ≤ 3)),
        ((l.getD tgt 0 : Int) - (l.getD i 0 : Int)).sign) := by
  unfold assess_move
  rw [delta_eq (getD_lt hlt hi) (getD_lt hlt ht)]

/-- A valid `assess_move` in a compatible stored direction realises a step
`relD` and reports that step's direction. -/
theorem assess_of_relD {l : List Nat} (hlt : ∀ x ∈ l, x < 2 ^ 31) {i tgt : Nat}
    (hi : i < l.length) (ht : tgt < l.length) {d s : Int}
    (hrel : relD d (l.getD i 0) (l.getD tgt 0)) (hs : s = 0 ∨ s = d) :
    (assess_move l i s tgt).1 = true ∧ (assess_move l i s tgt).2 = d := by
  rw [assess_move_eq hlt hi ht]
  rcases hrel with ⟨hd, hab1, hab2⟩ | ⟨hd, hab1, hab2⟩
  · have hsgn : ((l.getD tgt 0 : Int) - (l.getD i 0 : Int)).sign = 1 :=
      Int.sign_eq_one_iff_pos.mpr (by omega)
    subst hd
    refine ⟨?_, hsgn⟩
    simp only [Bool.and_eq_true, decide_eq_true_eq, hsgn]
    refine ⟨by rcases hs with h | h <;> omega, by omega, by omega⟩
  · have hsgn : ((l.getD tgt 0 : Int) - (l.getD i 0 : Int)).sign = -1 :=
      Int.sign_eq_neg_one_iff_neg.mpr (by omega)
    subst hd
    refine ⟨?_, hsgn⟩
    simp only [Bool.and_eq_true, decide_eq_true_eq, hsgn]
    refine ⟨by rcases hs with h | h <;> omega, by omega, by omega⟩

/-- A valid `assess_move` yields a `relD` step in the direction it
reports, and that direction agrees with a nonzero stored direction. -/
theorem relD_of_assess {l : List Nat} (hlt : ∀ x ∈ l, x < 2 ^ 31) {i tgt : Nat}
    (hi : i < l.length) (ht : tgt < l.length) {s : Int}
    (hs : s = 0 ∨ s = 1 ∨ s = -1)
    (hv : (assess_move l i s tgt).1 = true) :
    relD (assess_move l i s tgt).2 (l.getD i 0) (l.getD tgt 0) ∧
      ((assess_move l i s tgt).2 = 1 ∨ (assess_move l i s tgt).2 = -1) ∧
      (s ≠ 0 → (assess_move l i s tgt).2 = s) := by
  rw [assess_move_eq hlt hi ht] at hv ⊢
  simp only [Bool.and_eq_true, decide_eq_true_eq] at hv
  obtain ⟨hcompat, habs1, habs2⟩ := hv
  rcases Nat.lt_trichotomy (l.getD i 0) (l.getD tgt 0) with hab | hab | hab
  · have hsgn : ((l.getD tgt 0 : Int) - (l.getD i 0 : Int)).sign = 1 :=
      Int.sign_eq_one_iff_pos.mpr (by omega)
    rw [hsgn] at hcompat ⊢
    refine ⟨Or.inl ⟨rfl, hab, by omega⟩, Or.inl rfl, ?_⟩
    intro hs0
    rcases hs with h | h | h <;> omega
  · exfalso
    rw [hab] at habs1
    simp at habs1
  · have hsgn : ((l.getD tgt 0 : Int) - (l.getD i 0 : Int)).sign = -1 :=
      Int.sign_eq_neg_one_iff_neg.mpr (by omega)
    rw [hsgn] at hcompat ⊢
    refine ⟨Or.inr ⟨rfl, hab, by omega⟩, Or.inr rfl, ?_⟩
    intro hs0
    rcases hs with h | h | h <;> omega

/-! ## Membership helpers for `succs` -/

theorem pos0_mem_succs_start {l : List Nat} {skip_enabled : Bool} (h : 0 < l.length) :
    State.Pos 0 0 false ∈ succs l skip_enabled State.Start := by
  simp only [succs, List.mem_append]
  left
  rw [if_pos (by omega)]
  simp

theorem pos1_mem_succs_start {l : List Nat} {skip_enabled : Bool} (h : 1 < l.length)
    (hsk : skip_enabled = true) :
    State.Pos 1 0 true ∈ succs l skip_enabled State.Start := by
  simp only [succs, List.mem_append]
  right
  rw [if_pos ⟨h, hsk⟩]
  simp

theorem end_mem_succs_last {l : List Nat} {skip_enabled : Bool} {i : Nat} {g : Int}
    {b : Bool} (h : i = l.length - 1) :
    State.End ∈ succs l skip_enabled (State.Pos i g b) := by
  simp only [succs]
  rw [if_pos h]
  simp

theorem pos_succ_mem {l : List Nat} {skip_enabled : Bool} {i : Nat} {g : Int} {b : Bool}
    (h : i ≠ l.length - 1) (hv : (assess_move l i g (i + 1)).1 = true) :
    State.Pos (i + 1) (assess_move l i g (i + 1)).2 b ∈
      succs l skip_enabled (State.Pos i g b) := by
  simp only [succs]
  rw [if_neg h]
  refine List.mem_append.mpr (Or.inl ?_)
  rw [if_pos hv]
  simp

theorem end_mem_succs_skip {l : List Nat} {skip_enabled : Bool} {i : Nat} {g : Int}
    (h : i ≠ l.length - 1) (hsk : skip_enabled = true) (h2 : i = l.length - 2) :
    State.End ∈ succs l skip_enabled (State.Pos i g false) := by
  simp only [succs]
  rw [if_neg h]
  refine List.mem_append.mpr (Or.inr ?_)
  rw [if_pos ⟨trivial, hsk⟩, if_pos h2]
  simp

theorem pos_skip_mem {l : List Nat} {skip_enabled : Bool} {i : Nat} {g : Int}
    (h : i ≠ l.length - 1) (hsk : skip_enabled = true) (h2 : i ≠ l.length - 2)
    (hv : (assess_move l i g (i + 2)).1 = true) :
    State.Pos (i + 2) (assess_move l i g (i + 2)).2 true ∈
      succs l skip_enabled (State.Pos i g false) := by
  simp only [succs]
  rw [if_neg h]
  refine List.mem_append.mpr (Or.inr ?_)
  rw [if_pos ⟨trivial, hsk⟩, if_neg h2, if_pos hv]
  simp

/-! ## Walks through the report -/

/-- From position `i` with a compatible stored direction, a good suffix can
be traversed to `End` without skipping. -/
theorem walk_to_end {l : List Nat} {skip_enabled : Bool} (hlt : ∀ x ∈ l, x < 2 ^ 31)
    {d : Int} :
    ∀ m i s sk, l.length - i ≤ m → i < l.length → (s = 0 ∨ s = d) →
      (∀ t, i ≤ t → t + 1 < l.length → relD d (l.getD t 0) (l.getD (t + 1) 0)) →
      StepsTo l skip_enabled (State.Pos i s sk) State.End := by
  intro m
  induction m with
  | zero => intro i s sk hm hi _ _; omega
  | succ m ih =>
      intro i s sk hm hi hs hchain
      by_cases hlast : i = l.length - 1
      · exact StepsTo.tail (StepsTo.refl _) (end_mem_succs_last hlast)
      · have hi1 : i + 1 < l.length := by omega
        have hrel := hchain i le_rfl hi1
        have hass := assess_of_relD hlt hi hi1 hrel hs
        have hmem : State.Pos (i + 1) (assess_move l i s (i + 1)).2 sk ∈
            succs l skip_enabled (State.Pos i s sk) := pos_succ_mem hlast hass.1
        rw [hass.2] at hmem
        refine stepsTo_trans (StepsTo.tail (StepsTo.refl _) hmem)
          (ih (i + 1) d sk (by omega) hi1 (Or.inr rfl) ?_)
        intro t htl htu
        exact hchain t (by omega) htu

/-- A good prefix can be traversed from `Start` to position `m` without
skipping; the stored direction is `0` at position 0 and `d` afterwards. -/
theorem walk_from_start {l : List Nat} {skip_enabled : Bool} (hlt : ∀ x ∈ l, x < 2 ^ 31)
    {d : Int} :
    ∀ m, m < l.length → (∀ t, t + 1 ≤ m → relD d (l.getD t 0) (l.getD (t + 1) 0)) →
      StepsTo l skip_enabled State.Start (State.Pos m (if m = 0 then 0 else d) false) := by
  intro m
  induction m with
  | zero =>
      intro h0 _
      simpa using StepsTo.tail (StepsTo.refl _)
        (show State.Pos 0 0 false ∈ succs l skip_enabled State.Start from
          pos0_mem_succs_start h0)
  | succ m ih =>
      intro hm hchain
      have hmlt : m < l.length := by omega
      have prev := ih hmlt (fun t ht => hchain t (by omega))
      have hs : (if m = 0 then (0 : Int) else d) = 0 ∨ (if m = 0 then (0 : Int) else d) = d := by
        by_cases h0 : m = 0 <;> simp [h0]
      have hrel := hchain m (by omega)
      have hass := assess_of_relD hlt hmlt hm hrel hs
      have hlast : m ≠ l.length - 1 := by omega
      have hmem : State.Pos (m + 1) (assess_move l m (if m = 0 then 0 else d) (m + 1)).2 false ∈
          succs l skip_enabled (State.Pos m (if m = 0 then 0 else d) false) :=
        pos_succ_mem hlast hass.1
      rw [hass.2] at hmem
      have hif : (if m + 1 = 0 then (0 : Int) else d) = d := by simp
      rw [hif]
      exact stepsTo_trans prev (StepsTo.tail (StepsTo.refl _) hmem)

/-! ## Index bookkeeping for one deletion -/

theorem length_eraseIdx_of_lt {l : List Nat} {j : Nat} (hj : j < l.length) :
    (l.eraseIdx j).length = l.length - 1 := by
  rw [List.length_eraseIdx, if_pos hj]

theorem getD_eraseIdx {l : List Nat} {j p : Nat} (hj : j < l.length)
    (hp : p + 1 < l.length) :
    (l.eraseIdx j).getD p 0 = if p < j then l.getD p 0 else l.getD (p + 1) 0 := by
  have hp' : p < (l.eraseIdx j).length := by
    rw [length_eraseIdx_of_lt hj]; omega
  rw [List.getD_eq_getElem _ 0 hp', List.getElem_eraseIdx]
  by_cases hpj : p < j
  · rw [dif_pos hpj, if_pos hpj, List.getD_eq_getElem _ 0 (by omega)]
  · rw [dif_neg hpj, if_neg hpj, List.getD_eq_getElem _ 0 hp]

theorem mem_eraseIdx_small {l : List Nat} {j : Nat} {x : Nat}
    (h : x ∈ l.eraseIdx j) : x ∈ l := by
  rw [List.eraseIdx_eq_take_drop_succ] at h
  rcases List.mem_append.mp h with h | h
  · exact List.mem_of_mem_take h
  · exact List.mem_of_mem_drop h

/-! ## `goodSeq` as a directed index-wise chain -/

theorem goodSeq_relD {l : List Nat} (h : goodSeq l) :
    ∃ d, (d = 1 ∨ d = -1) ∧
      ∀ t, t + 1 < l.length → relD d (l.getD t 0) (l.getD (t + 1) 0) := by
  rcases h with h | h
  · refine ⟨1, Or.inl rfl, ?_⟩
    intro t ht
    rw [List.chain'_iff_get] at h
    have hh := h t (by omega)
    rw [List.getD_eq_getElem _ 0 (by omega), List.getD_eq_getElem _ 0 ht]
    exact Or.inl ⟨rfl, by simpa using hh⟩
  · refine ⟨-1, Or.inr rfl, ?_⟩
    intro t ht
    rw [List.chain'_iff_get] at h
    have hh := h t (by omega)
    rw [List.getD_eq_getElem _ 0 (by omega), List.getD_eq_getElem _ 0 ht]
    exact Or.inr ⟨rfl, by simpa using hh⟩

theorem goodSeq_of_relD {l : List Nat} {d : Int} (hd : d = 1 ∨ d = -1)
    (h : ∀ t, t + 1 < l.length → relD d (l.getD t 0) (l.getD (t + 1) 0)) :
    goodSeq l := by
  rcases hd with rfl | rfl
  · left
    rw [List.chain'_iff_get]
    intro t ht
    rcases h t (by omega) with ⟨-, hup⟩ | ⟨hcon, -⟩
    · rw [List.getD_eq_getElem _ 0 (by omega), List.getD_eq_getElem _ 0 (by omega)] at hup
      simpa using hup
    · exact absurd hcon (by decide)
  · right
    rw [List.chain'_iff_get]
    intro t ht
    rcases h t (by omega) with ⟨hcon, -⟩ | ⟨-, hdn⟩
    · exact absurd hcon (by decide)
    · rw [List.getD_eq_getElem _ 0 (by omega), List.getD_eq_getElem _ 0 (by omega)] at hdn
      simpa using hdn

/-! ## Completeness: a witnessing deletion gives a path to `End` -/

theorem reach_end_of_goodSeq {l : List Nat} {skip_enabled : Bool}
    (hlt : ∀ x ∈ l, x < 2 ^ 31) (hne : l ≠ []) (hgood : goodSeq l) :
    Reach l skip_enabled State.End := by
  obtain ⟨d, hd, hchain⟩ := goodSeq_relD hgood
  have h0 : 0 < l.length := List.length_pos.mpr hne
  refine stepsTo_trans (StepsTo.tail (StepsTo.refl _) (pos0_mem_succs_start h0)) ?_
  exact walk_to_end (d := d) hlt l.length 0 0 false (by omega) h0 (Or.inl rfl)
    (fun t _ htu => hchain t htu)

theorem reach_end_of_eraseIdx {l : List Nat} (hlt : ∀ x ∈ l, x < 2 ^ 31)
    {j : Nat} (hj : j < l.length) (hgood : goodSeq (l.eraseIdx j)) :
    Reach l true State.End := by
  obtain ⟨d, hd, hchain⟩ := goodSeq_relD hgood
  have hlen : (l.eraseIdx j).length = l.length - 1 := length_eraseIdx_of_lt hj
  by_cases h1 : l.length = 1
  · -- length-1 report: traverse directly, no skip needed
    refine stepsTo_trans (StepsTo.tail (StepsTo.refl _)
      (pos0_mem_succs_start (by omega))) ?_
    exact walk_to_end (d := 1) hlt l.length 0 0 false (by omega) (by omega)
      (Or.inl rfl) (fun t ht htu => by omega)
  · have h2 : 2 ≤ l.length := by omega
    by_cases hj0 : j = 0
    · -- delete the first element: start with the skip, walk the tail
      subst hj0
      refine stepsTo_trans (StepsTo.tail (StepsTo.refl _)
        (pos1_mem_succs_start (by omega) rfl)) ?_
      refine walk_to_end (d := d) hlt l.length 1 0 true (by omega) (by omega) (Or.inl rfl) ?_
      intro t ht htu
      have := hchain (t - 1) (by omega)
      rw [getD_eraseIdx (by omega) (by omega), if_neg (by omega),
        getD_eraseIdx (by omega) (by omega), if_neg (by omega)] at this
      have hte : t - 1 + 1 = t := by omega
      rw [hte] at this
      exact this
    · by_cases hjlast : j = l.length - 1
      · -- delete the last element: walk the front, then skip to End
        subst hjlast
        have hwalk : StepsTo l true State.Start
            (State.Pos (l.length - 2) (if l.length - 2 = 0 then 0 else d) false) :=
          walk_from_start hlt (l.length - 2) (by omega) ?_
        · refine stepsTo_trans hwalk (StepsTo.tail (StepsTo.refl _) ?_)
          exact end_mem_succs_skip (by omega) rfl rfl
        · intro t ht
          have := hchain t (by omega)
          rw [getD_eraseIdx (by omega) (by omega), if_pos (by omega),
            getD_eraseIdx (by omega) (by omega), if_pos (by omega)] at this
          exact this
      · -- delete an interior element: walk the front, skip over j, walk the rest
        have hj1 : 1 ≤ j := by omega
        have hjn : j ≤ l.length - 2 := by omega
        have hwalk : StepsTo l true State.Start
            (State.Pos (j - 1) (if j - 1 = 0 then 0 else d) false) :=
          walk_from_start hlt (j - 1) (by omega) ?_
        · have hrel : relD d (l.getD (j - 1) 0) (l.getD (j + 1) 0) := by
            have := hchain (j - 1) (by omega)
            rw [getD_eraseIdx (by omega) (by omega), if_pos (by omega),
              getD_eraseIdx (by omega) (by omega), if_neg (by omega)] at this
            have hte : j - 1 + 1 = j := by omega
            rw [hte] at this
            exact this
          have hs : (if j - 1 = 0 then (0 : Int) else d) = 0 ∨
              (if j - 1 = 0 then (0 : Int) else d) = d := by
            by_cases h0 : j - 1 = 0 <;> simp [h0]
          have hje : j - 1 + 2 = j + 1 := by omega
          have hass : (assess_move l (j - 1) (if j - 1 = 0 then 0 else d) (j + 1)).1 = true ∧
              (assess_move l (j - 1) (if j - 1 = 0 then 0 else d) (j + 1)).2 = d :=
            assess_of_relD hlt (by omega) (by omega) hrel hs
          have hmem : State.Pos (j - 1 + 2)
              (assess_move l (j - 1) (if j - 1 = 0 then 0 else d) (j - 1 + 2)).2 true ∈
              succs l true (State.Pos (j - 1) (if j - 1 = 0 then 0 else d) false) :=
            pos_skip_mem (by omega) rfl (by omega) (by rw [hje]; exact hass.1)
          rw [hje] at hmem
          rw [hass.2] at hmem
          refine stepsTo_trans hwalk (stepsTo_trans (StepsTo.tail (StepsTo.refl _) hmem) ?_)
          refine walk_to_end (d := d) hlt l.length (j + 1) d true (by omega) (by omega)
            (Or.inr rfl) ?_
          intro t ht htu
          have := hchain (t - 1) (by omega)
          rw [getD_eraseIdx (by omega) (by omega), if_neg (by omega),
            getD_eraseIdx (by omega) (by omega), if_neg (by omega)] at this
          have hte : t - 1 + 1 = t := by omega
          rw [hte] at this
          exact this
        · intro t ht
          have := hchain t (by omega)
          rw [getD_eraseIdx (by omega) (by omega), if_pos (by omega),
            getD_eraseIdx (by omega) (by omega), if_pos (by omega)] at this
          exact this

/-! ## Soundness: every accepted run corresponds to a deletion -/

theorem mem_succs_start_elim {l : List Nat} {skip_enabled : Bool} {s : State}
    (h : s ∈ succs l skip_enabled State.Start) :
    (s = State.Pos 0 0 false ∧ 0 < l.length) ∨
      (s = State.Pos 1 0 true ∧ 1 < l.length ∧ skip_enabled = true) := by
  simp only [succs, List.mem_append] at h
  rcases h with h | h
  · by_cases hn : l.length ≠ 0
    · rw [if_pos hn] at h
      simp at h
      exact Or.inl ⟨h, by omega⟩
    · rw [if_neg hn] at h
      simp at h
  · by_cases hc : 1 < l.length ∧ skip_enabled = true
    · rw [if_pos hc] at h
      simp at h
      exact Or.inr ⟨h, hc⟩
    · rw [if_neg hc] at h
      simp at h

theorem mem_succs_pos_elim {l : List Nat} {skip_enabled : Bool} {i : Nat} {g : Int}
    {b : Bool} {s : State} (h : s ∈ succs l skip_enabled (State.Pos i g b)) :
    (i = l.length - 1 ∧ s = State.End) ∨
      (i ≠ l.length - 1 ∧ (assess_move l i g (i + 1)).1 = true ∧
        s = State.Pos (i + 1) (assess_move l i g (i + 1)).2 b) ∨
      (i ≠ l.length - 1 ∧ b = false ∧ skip_enabled = true ∧ i = l.length - 2 ∧
        s = State.End) ∨
      (i ≠ l.length - 1 ∧ b = false ∧ skip_enabled = true ∧ i ≠ l.length - 2 ∧
        (assess_move l i g (i + 2)).1 = true ∧
        s = State.Pos (i + 2) (assess_move l i g (i + 2)).2 true) := by
  simp only [succs] at h
  by_cases hlast : i = l.length - 1
  · rw [if_pos hlast] at h
    simp at h
    exact Or.inl ⟨hlast, h⟩
  · rw [if_neg hlast] at h
    simp only [List.mem_append] at h
    rcases h with h | h
    · by_cases hv : (assess_move l i g (i + 1)).1
      · rw [if_pos hv] at h
        simp at h
        exact Or.inr (Or.inl ⟨hlast, hv, h⟩)
      · rw [if_neg hv] at h
        simp at h
    · by_cases hsk : b = false ∧ skip_enabled = true
      · rw [if_pos hsk] at h
        by_cases h2 : i = l.length - 2
        · rw [if_pos h2] at h
          simp at h
          exact Or.inr (Or.inr (Or.inl ⟨hlast, hsk.1, hsk.2, h2, h⟩))
        · rw [if_neg h2] at h
          by_cases hv : (assess_move l i g (i + 2)).1
          · rw [if_pos hv] at h
            simp at h
            exact Or.inr (Or.inr (Or.inr ⟨hlast, hsk.1, hsk.2, h2, hv, h⟩))
          · rw [if_neg hv] at h
            simp at h
      · rw [if_neg hsk] at h
        simp at h

/-- Invariant of reachable `Pos` states: the index is in bounds, and the
values visited so far (all of `l[0..i]`, minus the single deleted index
`j` when `skipped` is true) form a directed chain whose last direction is
the stored sign (`0` while only one element has been visited). -/
def PosInv (l : List Nat) (skip_enabled : Bool) : State → Prop
  | State.Pos i s false => i < l.length ∧
      ((i = 0 ∧ s = 0) ∨
        ((s = 1 ∨ s = -1) ∧ 1 ≤ i ∧
          ∀ t, t + 1 ≤ i → relD s (l.getD t 0) (l.getD (t + 1) 0)))
  | State.Pos i s true => i < l.length ∧ skip_enabled = true ∧
      ∃ j, j < i ∧
        ((i = 1 ∧ j = 0 ∧ s = 0) ∨
          ((s = 1 ∨ s = -1) ∧
            (∀ t, t + 1 ≤ i → t ≠ j → t + 1 ≠ j →
              relD s (l.getD t 0) (l.getD (t + 1) 0)) ∧
            (1 ≤ j → relD s (l.getD (j - 1) 0) (l.getD (j + 1) 0))))
  | _ => True

theorem posInv_of_reach {l : List Nat} {skip_enabled : Bool}
    (hlt : ∀ x ∈ l, x < 2 ^ 31) :
    ∀ s, Reach l skip_enabled s → PosInv l skip_enabled s := by
  intro s h
  induction h with
  | refl => trivial
  | tail hprev hmem ih =>
      rename_i t u
      clear hprev
      match t with
      | State.End => simp [succs] at hmem
      | State.Start =>
          rcases mem_succs_start_elim hmem with ⟨rfl, h0⟩ | ⟨rfl, h1, hsk⟩
          · exact ⟨h0, Or.inl ⟨rfl, rfl⟩⟩
          · exact ⟨h1, hsk, 0, by omega, Or.inl ⟨rfl, rfl, rfl⟩⟩
      | State.Pos i g b =>
          rcases mem_succs_pos_elim hmem with ⟨-, rfl⟩ |
            ⟨hlast, hv, rfl⟩ | ⟨-, -, -, -, rfl⟩ | ⟨hlast, hb, hsk, h2, hv, rfl⟩
          · trivial
          · -- normal move to i+1, preserving b
            match b with
            | false =>
                obtain ⟨hi, hold⟩ := ih
                have hi1 : i + 1 < l.length := by omega
                have hg : g = 0 ∨ g = 1 ∨ g = -1 := by
                  rcases hold with ⟨-, h0⟩ | ⟨hg, -, -⟩
                  · exact Or.inl h0
                  · exact Or.inr hg
                obtain ⟨hrel, hd, hgd⟩ := relD_of_assess hlt hi hi1 hg hv
                refine ⟨hi1, Or.inr ⟨hd, by omega, ?_⟩⟩
                intro t ht
                rcases hold with ⟨hi0, -⟩ | ⟨hg1, -, hchain⟩
                · subst hi0
                  have ht0 : t = 0 := by omega
                  subst ht0
                  exact hrel
                · have hgd2 := hgd (by rcases hg1 with h | h <;> omega)
                  by_cases hti : t + 1 ≤ i
                  · rw [hgd2]; exact hchain t hti
                  · have ht2 : t = i := by omega
                    subst ht2
                    exact hrel
            | true =>
                obtain ⟨hi, hsk2, j, hj, hold⟩ := ih
                have hi1 : i + 1 < l.length := by omega
                have hg : g = 0 ∨ g = 1 ∨ g = -1 := by
                  rcases hold with ⟨-, -, h0⟩ | ⟨hg, -, -⟩
                  · exact Or.inl h0
                  · exact Or.inr hg
                obtain ⟨hrel, hd, hgd⟩ := relD_of_assess hlt hi hi1 hg hv
                refine ⟨hi1, hsk2, j, by omega, Or.inr ⟨hd, ?_, ?_⟩⟩
                · intro t ht htj htj1
                  rcases hold with ⟨hi1', hj0, -⟩ | ⟨hg1, hchainA, -⟩
                  · subst hi1'
                    subst hj0
                    have ht1 : t = 1 := by omega
                    subst ht1
                    exact hrel
                  · have hgd2 := hgd (by rcases hg1 with h | h <;> omega)
                    by_cases hti : t + 1 ≤ i
                    · rw [hgd2]; exact hchainA t hti htj htj1
                    · have ht2 : t = i := by omega
                      subst ht2
                      exact hrel
                · intro hj1
                  rcases hold with ⟨-, hj0, -⟩ | ⟨hg1, -, hchainB⟩
                  · omega
                  · have hgd2 := hgd (by rcases hg1 with h | h <;> omega)
                    rw [hgd2]
                    exact hchainB hj1
          · trivial
          · -- skip move to i+2 (b was false); the deleted index is i+1
            subst hb
            obtain ⟨hi, hold⟩ := ih
            have hi2 : i + 2 < l.length := by omega
            have hg : g = 0 ∨ g = 1 ∨ g = -1 := by
              rcases hold with ⟨-, h0⟩ | ⟨hg1, -, -⟩
              · exact Or.inl h0
              · exact Or.inr hg1
            obtain ⟨hrel, hd, hgd⟩ := relD_of_assess hlt hi hi2 hg hv
            refine ⟨hi2, hsk, i + 1, by omega, Or.inr ⟨hd, ?_, ?_⟩⟩
            · intro t ht htj htj1
              have hti : t + 1 ≤ i := by omega
              rcases hold with ⟨hi0, -⟩ | ⟨hg1, -, hchain⟩
              · omega
              · have hgd2 := hgd (by rcases hg1 with h | h <;> omega)
                rw [hgd2]
                exact hchain t hti
            · intro _
              have he1 : i + 1 - 1 = i := by omega
              rw [he1]
              exact hrel

theorem goodSeq_short {l : List Nat} (h : l.length ≤ 1) : goodSeq l := by
  match l with
  | [] => exact Or.inl List.chain'_nil
  | [a] => exact Or.inl (List.chain'_singleton a)
  | a :: b :: t => simp at h

theorem reach_end_inv {l : List Nat} {skip_enabled : Bool}
    (h : Reach l skip_enabled State.End) :
    ∃ i g b, Reach l skip_enabled (State.Pos i g b) ∧
      State.End ∈ succs l skip_enabled (State.Pos i g b) := by
  cases h with
  | tail hprev hmem =>
      rename_i t
      match t with
      | State.Start => exact absurd hmem end_not_mem_succs_start
      | State.End => simp [succs] at hmem
      | State.Pos i g b => exact ⟨i, g, b, hprev, hmem⟩

theorem safeSpec_of_reach_end {l : List Nat} {skip_enabled : Bool}
    (hlt : ∀ x ∈ l, x < 2 ^ 31) (h : Reach l skip_enabled State.End) :
    safeSpec l (if skip_enabled then 1 else 0) := by
  obtain ⟨i, g, b, hreach, hmem⟩ := reach_end_inv h
  have hinv := posInv_of_reach hlt _ hreach
  rcases mem_succs_pos_elim hmem with ⟨hlast, -⟩ | ⟨-, -, habs⟩ |
    ⟨hne2, hb, hsk, h2, -⟩ | ⟨-, -, -, -, -, habs⟩
  · -- the whole report was traversed (minus the deletion when b is true)
    match b with
    | false =>
        obtain ⟨hi, hold⟩ := hinv
        rcases hold with ⟨hi0, -⟩ | ⟨hg, -, hchain⟩
        · exact Or.inl (goodSeq_short (by omega))
        · exact Or.inl (goodSeq_of_relD hg (fun t ht => hchain t (by omega)))
    | true =>
        obtain ⟨hi, hsk2, j, hj, hold⟩ := hinv
        refine Or.inr ⟨by simp [hsk2], j, by omega, ?_⟩
        rcases hold with ⟨hi1, hj0, -⟩ | ⟨hg, hchainA, hchainB⟩
        · refine goodSeq_short ?_
          rw [length_eraseIdx_of_lt (by omega)]
          omega
        · refine goodSeq_of_relD hg ?_
          intro p hp
          rw [length_eraseIdx_of_lt (by omega)] at hp
          by_cases hpj : p + 1 < j
          · rw [getD_eraseIdx (by omega) (by omega), if_pos (by omega),
              getD_eraseIdx (by omega) (by omega), if_pos hpj]
            exact hchainA p (by omega) (by omega) (by omega)
          · by_cases hpj2 : p + 1 = j
            · rw [getD_eraseIdx (by omega) (by omega), if_pos (by omega),
                getD_eraseIdx (by omega) (by omega), if_neg (by omega)]
              have hB := hchainB (by omega)
              have he : j - 1 = p := by omega
              rw [he] at hB
              have he2 : j + 1 = p + 1 + 1 := by omega
              rw [he2] at hB
              exact hB
            · rw [getD_eraseIdx (by omega) (by omega), if_neg (by omega),
                getD_eraseIdx (by omega) (by omega), if_neg (by omega)]
              exact hchainA (p + 1) (by omega) (by omega) (by omega)
  · exact State.noConfusion habs
  · -- the last element was dropped from position length - 2
    subst hb
    obtain ⟨hi, hold⟩ := hinv
    refine Or.inr ⟨by simp [hsk], l.length - 1, by omega, ?_⟩
    rcases hold with ⟨hi0, -⟩ | ⟨hg, -, hchain⟩
    · refine goodSeq_short ?_
      rw [length_eraseIdx_of_lt (by omega)]
      omega
    · refine goodSeq_of_relD hg ?_
      intro p hp
      rw [length_eraseIdx_of_lt (by omega)] at hp
      rw [getD_eraseIdx (by omega) (by omega), if_pos (by omega),
        getD_eraseIdx (by omega) (by omega), if_pos (by omega)]
      exact hchain p (by omega)
  · exact State.noConfusion habs

/-- The central equivalence: for a nonempty report whose levels are all
below 2^31, the search accepts exactly when some set of at most
`skip_enabled` indices can be deleted to leave a good sequence. -/
theorem safe_iff_safeSpec {l : List Nat} {skip_enabled : Bool}
    (hlt : ∀ x ∈ l, x < 2 ^ 31) (hne : l ≠ []) :
    report_safety l skip_enabled = Safety.Safe ↔
      safeSpec l (if skip_enabled then 1 else 0) := by
  rw [report_safety_safe_iff_reach]
  constructor
  · exact safeSpec_of_reach_end hlt
  · intro hspec
    rcases hspec with hgood | ⟨hk, j, hj, hgood⟩
    · exact reach_end_of_goodSeq hlt hne hgood
    · have hsk : skip_enabled = true := by
        cases skip_enabled with
        | false => simp at hk
        | true => rfl
      subst hsk
      exact reach_end_of_eraseIdx hlt hj hgood

/-! ## Enabling the skip only adds transitions -/

theorem succs_false_subset {l : List Nat} {s u : State}
    (hu : u ∈ succs l false s) : u ∈ succs l true s := by
  match s with
  | State.End => simp [succs] at hu
  | State.Start =>
      rcases mem_succs_start_elim hu with ⟨rfl, h0⟩ | ⟨-, -, habs⟩
      · exact pos0_mem_succs_start h0
      · exact Bool.noConfusion habs
  | State.Pos i g b =>
      rcases mem_succs_pos_elim hu with ⟨hlast, rfl⟩ | ⟨hlast, hv, rfl⟩ |
        ⟨-, -, habs, -, -⟩ | ⟨-, -, habs, -, -, -⟩
      · exact end_mem_succs_last hlast
      · exact pos_succ_mem hlast hv
      · exact Bool.noConfusion habs
      · exact Bool.noConfusion habs

theorem reach_mono {l : List Nat} {s : State} (h : Reach l false s) :
    Reach l true s := by
  induction h with
  | refl => exact StepsTo.refl _
  | tail _ hmem ih => exact StepsTo.tail ih (succs_false_subset hmem)

/-! ## Bounds on reachable positions (no assumptions on the level values) -/

theorem reach_pos_lt {l : List Nat} {skip_enabled : Bool} :
    ∀ s, Reach l skip_enabled s → ∀ i g b, s = State.Pos i g b → i < l.length := by
  intro s h
  induction h with
  | refl => intro i g b heq; exact State.noConfusion heq
  | tail hprev hmem ih =>
      rename_i t u
      intro i g b heq
      subst heq
      match t with
      | State.End => simp [succs] at hmem
      | State.Start =>
          rcases mem_succs_start_elim hmem with ⟨heq2, h0⟩ | ⟨heq2, h1, -⟩
          · cases heq2; exact h0
          · cases heq2; exact h1
      | State.Pos i2 g2 b2 =>
          have hi2 : i2 < l.length := ih i2 g2 b2 rfl
          rcases mem_succs_pos hi2 hmem with habs | ⟨d, heq2, hlt2⟩ | ⟨d, heq2, hlt2, -⟩
          · exact State.noConfusion habs
          · cases heq2; exact hlt2
          · cases heq2; exact hlt2

theorem succs_skipped_stays {l : List Nat} {skip_enabled : Bool} {i : Nat} {g : Int}
    {j : Nat} {h2 : Int} {b2 : Bool}
    (hmem : State.Pos j h2 b2 ∈ succs l skip_enabled (State.Pos i g true)) :
    b2 = true := by
  rcases mem_succs_pos_elim hmem with ⟨-, habs⟩ | ⟨-, -, heq2⟩ |
    ⟨-, hb, -, -, habs⟩ | ⟨-, hb, -, -, -, heq2⟩
  · exact State.noConfusion habs
  · cases heq2; rfl
  · exact Bool.noConfusion hb
  · exact Bool.noConfusion hb

/-! ## The wording of the zero-tolerance property -/

/-- Strictly monotonic: all consecutive deltas share one nonzero sign. -/
def strictMono (l : List Nat) : Prop := l.Chain' (· < ·) ∨ l.Chain' (· > ·)

/-- Every adjacent absolute gap is in [1,3]. -/
def gapsOK (l : List Nat) : Prop :=
  l.Chain' (fun a b => 1 ≤ Nat.dist a b ∧ Nat.dist a b ≤ 3)

instance instDecStrictMono (l : List Nat) : Decidable (strictMono l) :=
  inferInstanceAs (Decidable (l.Chain' (· < ·) ∨ l.Chain' (· > ·)))

instance instDecGapsOK (l : List Nat) : Decidable (gapsOK l) :=
  inferInstanceAs (Decidable (l.Chain' (fun a b => 1 ≤ Nat.dist a b ∧ Nat.dist a b ≤ 3)))

theorem goodSeq_iff_claim (l : List Nat) : goodSeq l ↔ strictMono l ∧ gapsOK l := by
  unfold goodSeq strictMono gapsOK
  constructor
  · rintro (h | h)
    · rw [List.chain'_iff_get] at h
      constructor
      · left
        rw [List.chain'_iff_get]
        intro t ht
        obtain ⟨h1, -⟩ := h t ht
        exact h1
      · rw [List.chain'_iff_get]
        intro t ht
        obtain ⟨h1, h2⟩ := h t ht
        simp only [List.get_eq_getElem] at h1 h2
        constructor <;> simp [Nat.dist] <;> omega
    · rw [List.chain'_iff_get] at h
      constructor
      · right
        rw [List.chain'_iff_get]
        intro t ht
        obtain ⟨h1, -⟩ := h t ht
        exact h1
      · rw [List.chain'_iff_get]
        intro t ht
        obtain ⟨h1, h2⟩ := h t ht
        simp only [List.get_eq_getElem] at h1 h2
        constructor <;> simp [Nat.dist] <;> omega
  · rintro ⟨hm | hm, hg⟩
    · left
      rw [List.chain'_iff_get] at hm hg ⊢
      intro t ht
      obtain ⟨hg1, hg2⟩ := hg t ht
      have h1 := hm t ht
      simp only [List.get_eq_getElem] at hg1 hg2 h1 ⊢
      simp [Nat.dist] at hg1 hg2
      exact ⟨h1, by omega⟩
    · right
      rw [List.chain'_iff_get] at hm hg ⊢
      intro t ht
      obtain ⟨hg1, hg2⟩ := hg t ht
      have h1 := hm t ht
      simp only [List.get_eq_getElem] at hg1 hg2 h1 ⊢
      simp [Nat.dist] at hg1 hg2
      exact ⟨h1, by omega⟩

/-! ## Claims C1 - C7 -/

/-- C1 counterexample: the claimed equivalence fails as stated, on two
inputs.  The empty report satisfies the deletion criterion vacuously but
the search judges it `Unsafe`; and `[1, 4294967295]` is judged `Safe` with
zero tolerance although its gap is 4294967294 (the `u32` value is cast to a
negative `i32`, so the computed delta is -2). -/
theorem c1_counterexample :
    (report_safety [] false = Safety.Unsafe ∧ safeSpec [] 0) ∧
      (report_safety [1, 4294967295] false = Safety.Safe ∧
        ¬ safeSpec [1, 4294967295] 0) := by
  refine ⟨⟨by decide, Or.inl (Or.inl List.chain'_nil)⟩, by decide, ?_⟩
  simp [safeSpec, goodSeq, upStep, downStep]

/-- C1 (amended): for every nonempty report whose levels are all below
2^31 and either tolerance flag, `report_safety` returns `Safe` iff there
exists a set of at most `k` indices (`k` = 1 if skipping is enabled, else
0) whose deletion leaves a sequence strictly monotonic in one direction
with every adjacent gap magnitude in [1,3]; in particular a repairing
single-element drop is found whenever one exists.  (The empty report is
judged `Unsafe`, and levels at or above 2^31 change sign under the `i32`
cast.) -/
theorem c1_safe_iff_deletion (l : List Nat) (skip_enabled : Bool)
    (hlt : ∀ x ∈ l, x < 2 ^ 31) (hne : l ≠ []) :
    report_safety l skip_enabled = Safety.Safe ↔
      safeSpec l (if skip_enabled then 1 else 0) :=
  safe_iff_safeSpec hlt hne

theorem c1_witness :
    report_safety [1, 3, 2, 4, 5] true = Safety.Safe ↔
      safeSpec [1, 3, 2, 4, 5] (if true then 1 else 0) :=
  c1_safe_iff_deletion [1, 3, 2, 4, 5] true (by decide) (by decide)

/-- C2 counterexample: `[1, 4294967295]` has two elements and is judged
`Safe` with skipping disabled, yet it is not strictly monotonic with
adjacent gaps in [1,3] (its gap is 4294967294). -/
theorem c2_counterexample :
    report_safety [1, 4294967295] false = Safety.Safe ∧
      ¬ (strictMono [1, 4294967295] ∧ gapsOK [1, 4294967295]) := by
  refine ⟨by decide, ?_⟩
  simp [strictMono, gapsOK, Nat.dist]

/-- C2 (amended): for every report with at least two elements, all below
2^31, `report_safety` with skipping disabled returns `Safe` iff the
sequence is strictly monotonic (consecutive deltas share one nonzero
sign) and every adjacent absolute gap is in [1,3]. -/
theorem c2_no_skip_iff (l : List Nat) (h2 : 2 ≤ l.length)
    (hlt : ∀ x ∈ l, x < 2 ^ 31) :
    report_safety l false = Safety.Safe ↔ strictMono l ∧ gapsOK l := by
  rw [← goodSeq_iff_claim]
  have hne : l ≠ [] := by
    intro h
    rw [h] at h2
    simp at h2
  rw [safe_iff_safeSpec hlt hne]
  simp [safeSpec]

theorem c2_witness :
    report_safety [7, 6, 4, 2, 1] false = Safety.Safe ↔
      strictMono [7, 6, 4, 2, 1] ∧ gapsOK [7, 6, 4, 2, 1] :=
  c2_no_skip_iff [7, 6, 4, 2, 1] (by decide) (by decide)

/-- C3: one-tolerance safety is monotonic with respect to zero-tolerance
safety: whenever the checker answers `Safe` with skipping disabled, it
also answers `Safe` with skipping enabled. -/
theorem c3_skip_monotone (l : List Nat)
    (h : report_safety l false = Safety.Safe) :
    report_safety l true = Safety.Safe := by
  rw [report_safety_safe_iff_reach] at h ⊢
  exact reach_mono h

theorem c3_witness : report_safety [1, 2] true = Safety.Safe :=
  c3_skip_monotone [1, 2] (by decide)

/-- C4: the six example reports receive exactly the verdicts listed in the
tests of src/day2.rs (zero tolerance: `Safe` for the first and last only;
one tolerance: additionally `Safe` for `[1,3,2,4,5]` and `[8,6,4,4,1]`),
and `part1`/`part2` count 2 and 4 on the collection. -/
theorem c4_examples :
    report_safety [7, 6, 4, 2, 1] false = Safety.Safe ∧
      report_safety [1, 2, 7, 8, 9] false = Safety.Unsafe ∧
      report_safety [9, 7, 6, 2, 1] false = Safety.Unsafe ∧
      report_safety [1, 3, 2, 4, 5] false = Safety.Unsafe ∧
      report_safety [8, 6, 4, 4, 1] false = Safety.Unsafe ∧
      report_safety [1, 3, 6, 7, 9] false = Safety.Safe ∧
      report_safety [7, 6, 4, 2, 1] true = Safety.Safe ∧
      report_safety [1, 2, 7, 8, 9] true = Safety.Unsafe ∧
      report_safety [9, 7, 6, 2, 1] true = Safety.Unsafe ∧
      report_safety [1, 3, 2, 4, 5] true = Safety.Safe ∧
      report_safety [8, 6, 4, 4, 1] true = Safety.Safe ∧
      report_safety [1, 3, 6, 7, 9] true = Safety.Safe ∧
      part1 example_reports = 2 ∧ part2 example_reports = 4 := by
  decide

/-- C5: for every report and flag the frontier loop reaches a definite
verdict within `length + 2` rounds — the fuel is never exhausted — and
`report_safety` returns exactly that `Safe`/`Unsafe` verdict. -/
theorem c5_terminates (l : List Nat) (skip_enabled : Bool) :
    ∃ v, runSearch l skip_enabled (l.length + 2) [State.Start] = some v ∧
      report_safety l skip_enabled = v := by
  obtain ⟨v, hv⟩ := runSearch_total l skip_enabled
  refine ⟨v, hv, ?_⟩
  rw [report_safety, hv]
  rfl

/-- C6 counterexample: the empty report is judged `Unsafe` by the search
(from `Start` no state is generated and the frontier empties), not `Safe`
as claimed. -/
theorem c6_counterexample :
    report_safety [] false = Safety.Unsafe ∧ report_safety [] true = Safety.Unsafe := by
  exact ⟨by decide, by decide⟩

/-- C6 (amended): every report of length 1 is judged `Safe` under both
flags, but the report of length 0 is judged `Unsafe` under both flags. -/
theorem c6_short_reports (x : Nat) (b : Bool) :
    report_safety [x] b = Safety.Safe ∧ report_safety [] b = Safety.Unsafe := by
  cases b <;> exact ⟨rfl, rfl⟩

/-- C7: in every reachable search state `Pos (i, direction, skip_used)`
the index is strictly below the report length (so the indices `i`, `i+1`,
`i+2` passed to `assess_move` when generating its successors stay in
bounds), and along every transition out of a state with `skip_used = true`
the flag remains `true` — it never returns to `false`. -/
theorem c7_invariant (l : List Nat) (skip_enabled : Bool) :
    (∀ i g b, Reach l skip_enabled (State.Pos i g b) → i < l.length) ∧
      (∀ i g j h2 b2,
        State.Pos j h2 b2 ∈ succs l skip_enabled (State.Pos i g true) → b2 = true) := by
  constructor
  · intro i g b h
    exact reach_pos_lt _ h i g b rfl
  · intro i g j h2 b2 hmem
    exact succs_skipped_stays hmem

theorem c7_witness : (0 : Nat) < [1, 2].length ∧ true = true :=
  ⟨(c7_invariant [1, 2] false).1 0 0 false
      (StepsTo.tail (StepsTo.refl _) (by decide)),
    (c7_invariant [1, 2, 3] true).2 0 1 1 1 true (by decide)⟩

/-! ## The input parsers, from src/day1.rs, src/day2.rs and src/parse.rs

The winnow parsers are modelled as functions from the remaining input (a
list of characters) to `none` (a parse error) or the parsed value together
with the unconsumed rest. -/

/-- A winnow-style parser over character lists. -/
def P (α : Type) : Type := List Char → Option (α × List Char)

/-- winnow `dec_uint` at type `u32`: one or more ASCII digits, taken
greedily; fails when no digit is present or the value overflows a `u32`. -/
def dec_uint : P Nat := fun s =>
  let ds := s.takeWhile Char.isDigit
  if ds.isEmpty then none
  else
    let v := ds.foldl (fun acc c => acc * 10 + (c.toNat - Char.toNat '0')) 0
    if v < 2 ^ 32 then some (v, s.dropWhile Char.isDigit) else none

/-- The character class of winnow `space1`: spaces and tabs. -/
def isSpaceTab (c : Char) : Bool := c == ' ' || c == '\t'

/-- winnow `space1`: one or more spaces/tabs. -/
def space1 : P Unit := fun s =>
  if (s.takeWhile isSpaceTab).isEmpty then none
  else some ((), s.dropWhile isSpaceTab)

/-- winnow `newline`: a single line feed. -/
def newline : P Unit := fun s =>
  match s with
  | c :: rest => if c = '\n' then some ((), rest) else none
  | [] => none

/-- The tail loop of winnow `separated(1..)`: repeatedly try the separator
and then the element, stopping — with the input restored to before the
separator — at the first failure.  The fuel only bounds the iteration
count; every iteration of the parsers used below consumes at least one
character, so fuel equal to the remaining input length never runs out. -/
def sepTail {α : Type} (p : P α) (sep : P Unit) : Nat → List Char → List α × List Char
  | 0, s => ([], s)
  | fuel + 1, s =>
      match sep s with
      | none => ([], s)
      | some (_, s1) =>
          match p s1 with
          | none => ([], s)
          | some (a, s2) =>
              let r := sepTail p sep fuel s2
              (a :: r.1, r.2)

/-- winnow `separated(1.., p, sep)`. -/
def separated1 {α : Type} (p : P α) (sep : P Unit) : P (List α) := fun s =>
  match p s with
  | none => none
  | some (a, s1) =>
      let r := sepTail p sep s1.length s1
      some (a :: r.1, r.2)

/-- Function `aoc_parse` from src/parse.rs: run the parser in complete mode — the
whole input must be consumed — and render a failure as an error string. -/
def aoc_parse {α : Type} (p : P α) (input : String) : Except String α :=
  match p input.data with
  | some (v, []) => Except.ok v
  | some (_, _ :: _) => Except.error "parse error: unconsumed input remains"
  | none => Except.error "parse error: invalid input"

namespace Day1

/-- Parser `pair` from src/day1.rs: `seq!(num, _: space1, num)`. -/
def pair : P (Nat × Nat) := fun s =>
  match dec_uint s with
  | none => none
  | some (a, s1) =>
      match space1 s1 with
      | none => none
      | some (_, s2) =>
          match dec_uint s2 with
          | none => none
          | some (b, s3) => some ((a, b), s3)

/-- Parser `list` from src/day1.rs: one or more pairs separated by newlines. -/
def list : P (List (Nat × Nat)) := separated1 pair newline

/-- Function `parse` from src/day1.rs. -/
def parse (input : String) : Except String (List (Nat × Nat)) :=
  aoc_parse list input

end Day1

namespace Day2

/-- Parser `report` from src/day2.rs: one or more numbers separated by spaces. -/
def report : P (List Nat) := separated1 dec_uint space1

/-- Parser `reports` from src/day2.rs: one or more reports separated by
newlines. -/
def reports : P (List (List Nat)) := separated1 report newline

/-- Function `parse` from src/day2.rs. -/
def parse (input : String) : Except String (List (List Nat)) :=
  aoc_parse reports input

end Day2

/-! ## Day 1 aggregators, from src/day1.rs -/

/-- A `u32` sum: every addition wraps modulo 2^32 (release semantics of
`Iterator::sum::<u32>`). -/
def u32sum (l : List Nat) : Nat := l.foldl (fun a b => (a + b) % 2 ^ 32) 0

namespace Day1

/-- Function `part1` from src/day1.rs: unzip the pairs, sort the two columns, sum
the absolute differences.  `List.insertionSort` models `Vec::sort` (a
sorted permutation), `Nat.dist` models `u32::abs_diff`. -/
def part1 (pairs : List (Nat × Nat)) : Nat :=
  let left := List.insertionSort (fun a b => a ≤ b) (pairs.map Prod.fst)
  let right := List.insertionSort (fun a b => a ≤ b) (pairs.map Prod.snd)
  u32sum ((left.zip right).map (fun ab => Nat.dist ab.1 ab.2))

/-- Function `part2` from src/day1.rs: multiply each left value by the number of
times it appears in the right column (the `u32` counter and product wrap),
and sum. -/
def part2 (pairs : List (Nat × Nat)) : Nat :=
  let left := pairs.map Prod.fst
  let right := pairs.map Prod.snd
  u32sum (left.map (fun a => (a * (right.count a % 2 ^ 32)) % 2 ^ 32))

end Day1

/-! ## What a successful parse can consume

Every character consumed by these grammars is a digit, a space, a tab or a
newline; and the consumed text of `dec_uint` — hence of every element
parser, hence of the whole input on a complete parse — ends in a digit. -/

/-- The characters the grammars can consume. -/
def okChar (c : Char) : Bool := c.isDigit || c == ' ' || c == '\t' || c == '\n'

/-- Parser `p` consumes a front of `okChar` characters and returns the rest. -/
def SplitsOK {α : Type} (p : P α) : Prop :=
  ∀ s v rest, p s = some (v, rest) →
    ∃ pre, s = pre ++ rest ∧ ∀ c ∈ pre, okChar c = true

theorem dec_uint_splits : SplitsOK dec_uint := by
  intro s v rest h
  simp only [dec_uint] at h
  by_cases he : (s.takeWhile Char.isDigit).isEmpty
  · rw [if_pos he] at h
    exact Option.noConfusion h
  · rw [if_neg he] at h
    split at h
    · obtain ⟨-, hr⟩ := Prod.mk.inj (Option.some.inj h)
      subst hr
      refine ⟨s.takeWhile Char.isDigit, (List.takeWhile_append_dropWhile _ _).symm, ?_⟩
      intro c hc
      have hd := List.mem_takeWhile_imp hc
      simp [okChar, hd]
    · exact Option.noConfusion h

theorem space1_splits : SplitsOK space1 := by
  intro s v rest h
  simp only [space1] at h
  by_cases he : (s.takeWhile isSpaceTab).isEmpty
  · rw [if_pos he] at h
    exact Option.noConfusion h
  · rw [if_neg he] at h
    obtain ⟨-, hr⟩ := Prod.mk.inj (Option.some.inj h)
    subst hr
    refine ⟨s.takeWhile isSpaceTab, (List.takeWhile_append_dropWhile _ _).symm, ?_⟩
    intro c hc
    have hd := List.mem_takeWhile_imp hc
    simp only [isSpaceTab, Bool.or_eq_true, beq_iff_eq] at hd
    rcases hd with rfl | rfl <;> simp [okChar]

theorem newline_splits : SplitsOK newline := by
  intro s v rest h
  match s with
  | [] => exact Option.noConfusion h
  | c :: s2 =>
      simp only [newline] at h
      by_cases hc : c = '\n'
      · rw [if_pos hc] at h
        obtain ⟨-, hr⟩ := Prod.mk.inj (Option.some.inj h)
        subst hr
        subst hc
        refine ⟨['\n'], rfl, ?_⟩
        intro d hd
        simp at hd
        subst hd
        simp [okChar]
      · rw [if_neg hc] at h
        exact Option.noConfusion h

theorem sepTail_splits {α : Type} {p : P α} {sep : P Unit}
    (hp : SplitsOK p) (hsep : SplitsOK sep) :
    ∀ fuel s, ∃ pre, s = pre ++ (sepTail p sep fuel s).2 ∧
      ∀ c ∈ pre, okChar c = true := by
  intro fuel
  induction fuel with
  | zero =>
      intro s
      exact ⟨[], rfl, by simp⟩
  | succ fuel ih =>
      intro s
      cases h1 : sep s with
      | none =>
          refine ⟨[], ?_, by simp⟩
          simp [sepTail, h1]
      | some us1 =>
          obtain ⟨u, s1⟩ := us1
          cases h2 : p s1 with
          | none =>
              refine ⟨[], ?_, by simp⟩
              simp [sepTail, h1, h2]
          | some as2 =>
              obtain ⟨a, s2⟩ := as2
              obtain ⟨p1, e1, c1⟩ := hsep s u s1 h1
              obtain ⟨p2, e2, c2⟩ := hp s1 a s2 h2
              obtain ⟨p3, e3, c3⟩ := ih s2
              have hrw : (sepTail p sep (fuel + 1) s).2 = (sepTail p sep fuel s2).2 := by
                simp [sepTail, h1, h2]
              refine ⟨p1 ++ (p2 ++ p3), ?_, ?_⟩
              · rw [hrw]
                conv_lhs => rw [e1, e2, e3]
                simp [List.append_assoc]
              · intro c hc
                rcases List.mem_append.mp hc with hc | hc
                · exact c1 c hc
                · rcases List.mem_append.mp hc with hc | hc
                  · exact c2 c hc
                  · exact c3 c hc

theorem separated1_splits {α : Type} {p : P α} {sep : P Unit}
    (hp : SplitsOK p) (hsep : SplitsOK sep) : SplitsOK (separated1 p sep) := by
  intro s v rest h
  cases h1 : p s with
  | none => simp [separated1, h1] at h
  | some as1 =>
      obtain ⟨a, s1⟩ := as1
      simp only [separated1, h1] at h
      obtain ⟨-, hr⟩ := Prod.mk.inj (Option.some.inj h)
      obtain ⟨p1, e1, c1⟩ := hp s a s1 h1
      obtain ⟨p2, e2, c2⟩ := sepTail_splits hp hsep s1.length s1
      rw [hr] at e2
      refine ⟨p1 ++ p2, ?_, ?_⟩
      · rw [e1, e2]
        simp [List.append_assoc]
      · intro c hc
        rcases List.mem_append.mp hc with hc | hc
        · exact c1 c hc
        · exact c2 c hc

theorem day1_pair_splits : SplitsOK Day1.pair := by
  intro s v rest h
  cases h1 : dec_uint s with
  | none => simp [Day1.pair, h1] at h
  | some as1 =>
      obtain ⟨a, s1⟩ := as1
      cases h2 : space1 s1 with
      | none => simp [Day1.pair, h1, h2] at h
      | some us2 =>
          obtain ⟨u, s2⟩ := us2
          cases h3 : dec_uint s2 with
          | none => simp [Day1.pair, h1, h2, h3] at h
          | some bs3 =>
              obtain ⟨b, s3⟩ := bs3
              simp only [Day1.pair, h1, h2, h3] at h
              obtain ⟨-, hr⟩ := Prod.mk.inj (Option.some.inj h)
              subst hr
              obtain ⟨p1, e1, c1⟩ := dec_uint_splits s a s1 h1
              obtain ⟨p2, e2, c2⟩ := space1_splits s1 u s2 h2
              obtain ⟨p3, e3, c3⟩ := dec_uint_splits s2 b s3 h3
              refine ⟨p1 ++ (p2 ++ p3), ?_, ?_⟩
              · conv_lhs => rw [e1, e2, e3]
                simp [List.append_assoc]
              · intro c hc
                rcases List.mem_append.mp hc with hc | hc
                · exact c1 c hc
                · rcases List.mem_append.mp hc with hc | hc
                  · exact c2 c hc
                  · exact c3 c hc

theorem day1_list_splits : SplitsOK Day1.list :=
  separated1_splits day1_pair_splits newline_splits

theorem day2_report_splits : SplitsOK Day2.report :=
  separated1_splits dec_uint_splits space1_splits

theorem day2_reports_splits : SplitsOK Day2.reports :=
  separated1_splits day2_report_splits newline_splits

theorem aoc_parse_ok_chars {α : Type} {p : P α} (hp : SplitsOK p) {input : String}
    {v : α} (h : aoc_parse p input = Except.ok v) :
    ∀ c ∈ input.data, okChar c = true := by
  cases h1 : p input.data with
  | none => simp [aoc_parse, h1] at h
  | some vr =>
      obtain ⟨v2, rest⟩ := vr
      cases rest with
      | cons c t => simp [aoc_parse, h1] at h
      | nil =>
          obtain ⟨pre, he, hc⟩ := hp _ _ _ h1
          rw [List.append_nil] at he
          rw [he]
          exact hc

/-- Some whitespace-delimited token of `s` contains a non-digit: there is
a character that is neither a digit nor one of the separators space, tab,
newline. -/
def nonNumericToken (s : String) : Prop :=
  ∃ c ∈ s.data, c.isDigit = false ∧ c ≠ ' ' ∧ c ≠ '\t' ∧ c ≠ '\n'

instance instDecNonNumericToken (s : String) : Decidable (nonNumericToken s) :=
  inferInstanceAs
    (Decidable (∃ c ∈ s.data, c.isDigit = false ∧ c ≠ ' ' ∧ c ≠ '\t' ∧ c ≠ '\n'))

theorem parse_error_of_nonNumeric {α : Type} {p : P α} (hp : SplitsOK p)
    (s : String) (hn : nonNumericToken s) :
    ∃ e, aoc_parse p s = Except.error e := by
  cases h : aoc_parse p s with
  | error e => exact ⟨e, rfl⟩
  | ok v =>
      exfalso
      obtain ⟨c, hc, hd, h1, h2, h3⟩ := hn
      have hok := aoc_parse_ok_chars hp h c hc
      simp [okChar, hd, h1, h2, h3] at hok

/-- Parser `p` consumes a nonempty front whose last character is a digit. -/
def EndsDigit {α : Type} (p : P α) : Prop :=
  ∀ s v rest, p s = some (v, rest) →
    ∃ fr c, s = fr ++ c :: rest ∧ c.isDigit = true

theorem dec_uint_ends : EndsDigit dec_uint := by
  intro s v rest h
  simp only [dec_uint] at h
  by_cases he : (s.takeWhile Char.isDigit).isEmpty
  · rw [if_pos he] at h
    exact Option.noConfusion h
  · rw [if_neg he] at h
    split at h
    · obtain ⟨-, hr⟩ := Prod.mk.inj (Option.some.inj h)
      subst hr
      have hne : s.takeWhile Char.isDigit ≠ [] := by
        simpa [List.isEmpty_iff] using he
      refine ⟨(s.takeWhile Char.isDigit).dropLast,
        (s.takeWhile Char.isDigit).getLast hne, ?_, ?_⟩
      · conv_lhs => rw [← List.takeWhile_append_dropWhile Char.isDigit s,
          ← List.dropLast_append_getLast hne]
        simp [List.append_assoc]
      · exact List.mem_takeWhile_imp (List.getLast_mem hne)
    · exact Option.noConfusion h

theorem pair_ends : EndsDigit Day1.pair := by
  intro s v rest h
  cases h1 : dec_uint s with
  | none => simp [Day1.pair, h1] at h
  | some as1 =>
      obtain ⟨a, s1⟩ := as1
      cases h2 : space1 s1 with
      | none => simp [Day1.pair, h1, h2] at h
      | some us2 =>
          obtain ⟨u, s2⟩ := us2
          cases h3 : dec_uint s2 with
          | none => simp [Day1.pair, h1, h2, h3] at h
          | some bs3 =>
              obtain ⟨b, s3⟩ := bs3
              simp only [Day1.pair, h1, h2, h3] at h
              obtain ⟨-, hr⟩ := Prod.mk.inj (Option.some.inj h)
              subst hr
              obtain ⟨p1, e1, -⟩ := dec_uint_splits s a s1 h1
              obtain ⟨p2, e2, -⟩ := space1_splits s1 u s2 h2
              obtain ⟨fr, c, e3, hdig⟩ := dec_uint_ends s2 b s3 h3
              refine ⟨p1 ++ (p2 ++ fr), c, ?_, hdig⟩
              conv_lhs => rw [e1, e2, e3]
              simp [List.append_assoc]

theorem sepTail_ends {α : Type} {p : P α} {sep : P Unit}
    (hp : EndsDigit p) (hsep : SplitsOK sep) :
    ∀ fuel s, (sepTail p sep fuel s).2 = s ∨
      ∃ fr c, s = fr ++ c :: (sepTail p sep fuel s).2 ∧ c.isDigit = true := by
  intro fuel
  induction fuel with
  | zero => intro s; exact Or.inl rfl
  | succ fuel ih =>
      intro s
      cases h1 : sep s with
      | none =>
          left
          simp [sepTail, h1]
      | some us1 =>
          obtain ⟨u, s1⟩ := us1
          cases h2 : p s1 with
          | none =>
              left
              simp [sepTail, h1, h2]
          | some as2 =>
              obtain ⟨a, s2⟩ := as2
              right
              have hrw : (sepTail p sep (fuel + 1) s).2 = (sepTail p sep fuel s2).2 := by
                simp [sepTail, h1, h2]
              obtain ⟨p1, e1, -⟩ := hsep s u s1 h1
              obtain ⟨fr, c, e2, hdig⟩ := hp s1 a s2 h2
              rcases ih s2 with h3 | ⟨fr3, c3, e3, hdig3⟩
              · refine ⟨p1 ++ fr, c, ?_, hdig⟩
                rw [hrw, h3]
                conv_lhs => rw [e1, e2]
                simp [List.append_assoc]
              · refine ⟨p1 ++ (fr ++ c :: fr3), c3, ?_, hdig3⟩
                rw [hrw]
                conv_lhs => rw [e1, e2, e3]
                simp [List.append_assoc]

theorem separated1_ends {α : Type} {p : P α} {sep : P Unit}
    (hp : EndsDigit p) (hsep : SplitsOK sep) : EndsDigit (separated1 p sep) := by
  intro s v rest h
  cases h1 : p s with
  | none => simp [separated1, h1] at h
  | some as1 =>
      obtain ⟨a, s1⟩ := as1
      simp only [separated1, h1] at h
      obtain ⟨-, hr⟩ := Prod.mk.inj (Option.some.inj h)
      obtain ⟨fr, c, e1, hdig⟩ := hp s a s1 h1
      rcases sepTail_ends hp hsep s1.length s1 with h2 | ⟨fr2, c2, e2, hdig2⟩
      · rw [hr] at h2
        refine ⟨fr, c, ?_, hdig⟩
        rw [e1, ← h2]
      · rw [hr] at e2
        refine ⟨fr ++ c :: fr2, c2, ?_, hdig2⟩
        conv_lhs => rw [e1, e2]
        simp [List.append_assoc]

theorem day1_list_ends : EndsDigit Day1.list :=
  separated1_ends pair_ends newline_splits

theorem day2_reports_ends : EndsDigit Day2.reports :=
  separated1_ends (separated1_ends dec_uint_ends space1_splits) newline_splits

theorem aoc_parse_last_digit {α : Type} {p : P α} (hp : EndsDigit p)
    {input : String} {v : α} (h : aoc_parse p input = Except.ok v) :
    ∃ fr c, input.data = fr ++ [c] ∧ c.isDigit = true := by
  cases h1 : p input.data with
  | none => simp [aoc_parse, h1] at h
  | some vr =>
      obtain ⟨v2, rest⟩ := vr
      cases rest with
      | cons c t => simp [aoc_parse, h1] at h
      | nil =>
          obtain ⟨fr, c, he, hdig⟩ := hp _ _ _ h1
          exact ⟨fr, c, he, hdig⟩

/-- An input ending in a line feed never parses completely: the grammars
consume text ending in a digit, and complete parsing must consume
everything. -/
theorem trailing_newline_error {α : Type} {p : P α} (hp : EndsDigit p)
    (s : String) : ∃ e, aoc_parse p (s ++ "\n") = Except.error e := by
  cases h : aoc_parse p (s ++ "\n") with
  | error e => exact ⟨e, rfl⟩
  | ok v =>
      exfalso
      obtain ⟨fr, c, he, hdig⟩ := aoc_parse_last_digit hp h
      have hdata : (s ++ "\n").data = s.data ++ ['\n'] := by
        rw [String.data_append]
      rw [hdata] at he
      have hcn : ('\n' : Char) = c := by
        have h1 := congrArg List.getLast? he
        rw [List.getLast?_concat, List.getLast?_concat] at h1
        exact Option.some.inj h1
      rw [← hcn] at hdig
      exact absurd hdig (by decide)

/-! ## Permutation invariance helpers for day 1 -/

theorem insertionSort_eq_of_perm {a b : List Nat} (h : a.Perm b) :
    List.insertionSort (fun x y => x ≤ y) a =
      List.insertionSort (fun x y => x ≤ y) b := by
  have hs1 : List.Sorted (fun x y => x ≤ y) (List.insertionSort (fun x y => x ≤ y) a) :=
    List.sorted_insertionSort _ a
  have hs2 : List.Sorted (fun x y => x ≤ y) (List.insertionSort (fun x y => x ≤ y) b) :=
    List.sorted_insertionSort _ b
  exact List.eq_of_perm_of_sorted
    ((List.perm_insertionSort _ a).trans (h.trans (List.perm_insertionSort _ b).symm))
    hs1 hs2

theorem u32sum_fold (l : List Nat) :
    ∀ acc, l.foldl (fun a b => (a + b) % 2 ^ 32) (acc % 2 ^ 32) =
      (acc + l.sum) % 2 ^ 32 := by
  induction l with
  | nil => intro acc; simp
  | cons b t ih =>
      intro acc
      simp only [List.foldl_cons, List.sum_cons]
      rw [Nat.mod_add_mod, ih (acc + b), Nat.add_assoc]

theorem u32sum_eq (l : List Nat) : u32sum l = l.sum % 2 ^ 32 := by
  have h := u32sum_fold l 0
  rw [Nat.zero_mod, Nat.zero_add] at h
  exact h

theorem u32sum_perm {a b : List Nat} (h : a.Perm b) : u32sum a = u32sum b := by
  rw [u32sum_eq, u32sum_eq, h.sum_eq]

/-! ## Claims C8 - C10 -/

/-- C8: the day-1 parser maps `"3   4\n4   3"` to `[(3,4),(4,3)]`; both
parse functions return an `Err` (a `ParseError` carrying a description)
on the empty input, and on every input containing a non-numeric token
(a whitespace-delimited token with a non-digit character). -/
theorem c8_parse_errors :
    Day1.parse "3   4\n4   3" = Except.ok [(3, 4), (4, 3)] ∧
      (∃ e, Day1.parse "" = Except.error e) ∧
      (∃ e, Day2.parse "" = Except.error e) ∧
      ∀ s, nonNumericToken s →
        (∃ e, Day1.parse s = Except.error e) ∧
          (∃ e, Day2.parse s = Except.error e) := by
  refine ⟨rfl, ⟨_, rfl⟩, ⟨_, rfl⟩, ?_⟩
  intro s hn
  exact ⟨parse_error_of_nonNumeric day1_list_splits s hn,
    parse_error_of_nonNumeric day2_reports_splits s hn⟩

theorem c8_witness :
    (∃ e, Day1.parse "3 a" = Except.error e) ∧
      (∃ e, Day2.parse "3 a" = Except.error e) :=
  c8_parse_errors.2.2.2 "3 a" (by decide)

/-- Modelled from the spec: trimming the whole input once, i.e. Rust
`str::trim` (the standard library function the spec refers to, not part
of src/): remove leading and trailing whitespace. -/
def strTrim (s : String) : String :=
  String.mk (((s.data.dropWhile Char.isWhitespace).reverse.dropWhile
    Char.isWhitespace).reverse)

/-- C9 counterexample: the parse functions do not trim; on the otherwise
valid day-1 input with a trailing newline, parsing the raw string fails
while parsing its trimmed form succeeds, so `parse s` differs from
`parse (trim s)`. -/
theorem c9_counterexample :
    Day1.parse "3   4\n4   3\n" ≠ Day1.parse (strTrim "3   4\n4   3\n") := by
  intro h
  have h1 : Day1.parse "3   4\n4   3\n" =
      Except.error "parse error: unconsumed input remains" := rfl
  have h2 : Day1.parse (strTrim "3   4\n4   3\n") = Except.ok [(3, 4), (4, 3)] := rfl
  rw [h1, h2] at h
  exact Except.noConfusion h

/-- C9 (amended): the parse functions perform no trimming of the input:
appending a trailing newline to any string — in particular to an
otherwise valid input — makes both parse functions fail with a
`ParseError`, because the trailing newline is never consumed. -/
theorem c9_no_trim (s : String) :
    (∃ e, Day1.parse (s ++ "\n") = Except.error e) ∧
      (∃ e, Day2.parse (s ++ "\n") = Except.error e) :=
  ⟨trailing_newline_error day1_list_ends s,
    trailing_newline_error day2_reports_ends s⟩

/-- C10: the day-1 answers are order-insensitive: permuting the pair list
changes neither the total distance of `part1` nor the similarity score of
`part2`. -/
theorem c10_order_insensitive (p q : List (Nat × Nat)) (h : p.Perm q) :
    Day1.part1 p = Day1.part1 q ∧ Day1.part2 p = Day1.part2 q := by
  constructor
  · simp only [Day1.part1]
    rw [insertionSort_eq_of_perm (h.map Prod.fst),
      insertionSort_eq_of_perm (h.map Prod.snd)]
  · simp only [Day1.part2]
    have hcount : ∀ a, (p.map Prod.snd).count a = (q.map Prod.snd).count a :=
      (h.map Prod.snd).count_eq
    have hf : (fun a => (a * ((p.map Prod.snd).count a % 2 ^ 32)) % 2 ^ 32) =
        (fun a => (a * ((q.map Prod.snd).count a % 2 ^ 32)) % 2 ^ 32) :=
      funext fun a => by rw [hcount a]
    rw [hf]
    exact u32sum_perm ((h.map Prod.fst).map _)

theorem c10_witness :
    Day1.part1 [(3, 4), (4, 3)] = Day1.part1 [(4, 3), (3, 4)] ∧
      Day1.part2 [(3, 4), (4, 3)] = Day1.part2 [(4, 3), (3, 4)] :=
  c10_order_insensitive _ _ (List.Perm.swap (4, 3) (3, 4) [])

end Aoc2024
